import Mathlib

/-!
# Verification of the word-language-model training orchestration core

Shallow embedding of `word_language_model/main.py` and proofs of the
specification's testable properties.  Token tensors are modelled as
`List ℤ` (flat streams) and `List (List ℤ)` (row-major matrices);
learning rates and losses are modelled as exact rationals `ℚ`;
fallible code returns `Option`.
-/

/-- Python `range(start, stop, step)` for a non-negative `start`/`stop` and a
positive `step`: the list `start, start + step, start + 2*step, …` of all values
below `stop`.  Its length is `⌈(stop - start) / step⌉`, written with natural
subtraction so the list is empty when `stop ≤ start`.  (Python raises
`ValueError` on `step = 0`; all theorems below assume a positive step.) -/
def pyRange (start stop step : ℕ) : List ℕ :=
  (List.range ((stop - start + step - 1) / step)).map (fun k => start + k * step)

/-- The step-offset sequence iterated by `train` (main.py line 148) and
`evaluate` (line 126): `range(args.bptt * args.rank, rows - 1,
args.bptt * args.world_size)` where `rows` is the number of rows of the
batched stream. -/
def stepOffsets (bptt rank world_size rows : ℕ) : List ℕ :=
  pyRange (bptt * rank) (rows - 1) (bptt * world_size)

/-- Matrix produced by `batchify` (main.py lines 71-78) in the non-error case.
`nbatch = data.size(0) // bsz` rows; the stream is trimmed to `nbatch * bsz`
tokens (`data.narrow(0, 0, nbatch * bsz)`), reshaped row-major into `bsz` rows
of length `nbatch` (`data.view(bsz, -1)`) and transposed (`.t()`), so entry
`(i, j)` of the result is token `j * nbatch + i` of the trimmed stream. -/
def batchifyData (data : List ℤ) (bsz : ℕ) : List (List ℤ) :=
  let nbatch := data.length / bsz
  let trimmed := data.take (nbatch * bsz)
  (List.range nbatch).map (fun i =>
    (List.range bsz).map (fun j => trimmed.getD (j * nbatch + i) 0))

/-- The Sequence Batcher `batchify` (main.py lines 71-78), with the failure
domain of the torch operations made explicit:
* `bsz = 0`: `data.size(0) // bsz` raises `ZeroDivisionError`;
* `nbatch * bsz` negative or larger than the stream (possible only for
  `bsz < 0`): `data.narrow(0, 0, nbatch * bsz)` raises;
* `bsz < 0`: `data.view(bsz, -1)` rejects a negative dimension;
* `nbatch * bsz = 0` (i.e. `len(data) < bsz` for positive `bsz`):
  `view(bsz, -1)` cannot infer the `-1` dimension of a 0-element tensor.
`//` is Python floor division, i.e. `Int.fdiv`. -/
def batchify (data : List ℤ) (bsz : ℤ) : Option (List (List ℤ)) :=
  if bsz = 0 then none
  else if Int.fdiv (data.length : ℤ) bsz * bsz < 0 ∨
      (data.length : ℤ) < Int.fdiv (data.length : ℤ) bsz * bsz then none
  else if bsz < 0 then none
  else if Int.fdiv (data.length : ℤ) bsz * bsz = 0 then none
  else some (batchifyData data bsz.toNat)

/-- The Window Slicer `get_batch` (main.py lines 112-116):
`seq_len = min(args.bptt, len(source) - 1 - i)`, input `source[i : i+seq_len]`,
target `source[i+1 : i+1+seq_len].view(-1)` (row-major flattening). -/
def get_batch (source : List (List ℤ)) (bptt i : ℕ) : List (List ℤ) × List ℤ :=
  let seq_len := min bptt (source.length - 1 - i)
  ((source.drop i).take seq_len, ((source.drop (i + 1)).take seq_len).flatten)

lemma batchify_natCast (data : List ℤ) (b : ℕ) (hb : 0 < b) :
    batchify data (b : ℤ) =
      if data.length / b = 0 then none else some (batchifyData data b) := by
  have hb0 : (b : ℤ) ≠ 0 := by exact_mod_cast hb.ne'
  unfold batchify
  rw [if_neg hb0, (Int.ofNat_fdiv data.length b).symm]
  have hmul : ((data.length / b : ℕ) : ℤ) * (b : ℤ) = ((data.length / b * b : ℕ) : ℤ) := by
    push_cast; ring
  have h1 : ¬(((data.length / b : ℕ) : ℤ) * (b : ℤ) < 0 ∨
      ((data.length : ℕ) : ℤ) < ((data.length / b : ℕ) : ℤ) * (b : ℤ)) := by
    rw [hmul]
    push_neg
    exact ⟨by exact_mod_cast Nat.zero_le _, by exact_mod_cast Nat.div_mul_le_self _ _⟩
  have h2 : ¬((b : ℤ) < 0) := by
    push_neg
    exact_mod_cast Nat.zero_le b
  rw [if_neg h1, if_neg h2, Int.toNat_natCast]
  by_cases h0 : data.length / b = 0
  · rw [if_pos (by rw [hmul, h0]; simp), if_pos h0]
  · rw [if_neg ?_, if_neg h0]
    rw [hmul]
    exact_mod_cast (Nat.mul_pos (Nat.pos_of_ne_zero h0) hb).ne'

/-- C8: the Sequence Batcher fails exactly when `B ≤ 0` or `L < B`, and
succeeds on all other inputs. -/
theorem c8_batchify_error_domain (data : List ℤ) (bsz : ℤ) :
    batchify data bsz = none ↔ bsz ≤ 0 ∨ (data.length : ℤ) < bsz := by
  rcases lt_trichotomy bsz 0 with hneg | rfl | hpos
  · have hres : batchify data bsz = none := by
      unfold batchify
      rw [if_neg hneg.ne]
      split_ifs <;> rfl
    simp [hres, hneg.le]
  · simp [batchify]
  · obtain ⟨b, rfl⟩ : ∃ b : ℕ, bsz = (b : ℤ) :=
      ⟨bsz.toNat, (Int.toNat_of_nonneg hpos.le).symm⟩
    have hb : 0 < b := by exact_mod_cast hpos
    rw [batchify_natCast data b hb]
    constructor
    · intro h
      split_ifs at h with h0
      exact Or.inr (by exact_mod_cast (Nat.div_eq_zero_iff hb).mp h0)
    · intro h
      rcases h with h | h
      · exact absurd hpos (by omega)
      · rw [if_pos ((Nat.div_eq_zero_iff hb).mpr (by exact_mod_cast h))]

/-- Column `j` of a row-major matrix, read top to bottom. -/
def matrixColumn (M : List (List ℤ)) (j : ℕ) : List ℤ :=
  M.map (fun row => row.getD j 0)

/-- Concatenation of the first `bsz` columns of a row-major matrix, in column
order. -/
def columnsJoin (M : List (List ℤ)) (bsz : ℕ) : List ℤ :=
  ((List.range bsz).map (fun j => matrixColumn M j)).flatten

lemma range_map_getD (l : List ℤ) (s n : ℕ) (h : s + n ≤ l.length) :
    (List.range n).map (fun i => l.getD (s + i) 0) = (l.drop s).take n := by
  induction n generalizing s with
  | zero => simp
  | succ n ih =>
    have hs : s < l.length := by omega
    rw [List.range_succ_eq_map, List.map_cons, List.map_map,
      List.drop_eq_getElem_cons hs]
    have hfun : ((fun i => l.getD (s + i) 0) ∘ Nat.succ) =
        fun i => l.getD (s + 1 + i) 0 := by
      funext i
      simp only [Function.comp_apply]
      congr 1
      omega
    rw [hfun, ih (s + 1) (by omega)]
    simp only [List.take_succ_cons, Nat.add_zero]
    rw [List.getD_eq_getElem l 0 hs]

lemma chunks_flatten (bsz : ℕ) :
    ∀ (l : List ℤ) (n : ℕ), l.length = bsz * n →
      ((List.range bsz).map (fun j => (l.drop (j * n)).take n)).flatten = l := by
  induction bsz with
  | zero => intro l n h; simpa using (List.eq_nil_of_length_eq_zero (by simpa using h)).symm
  | succ b ih =>
    intro l n h
    rw [List.range_succ_eq_map, List.map_cons, List.map_map, List.flatten_cons]
    have hfun : ((fun j => (l.drop (j * n)).take n) ∘ Nat.succ) =
        fun j => ((l.drop n).drop (j * n)).take n := by
      funext j
      rw [Function.comp_apply, List.drop_drop]
      congr 2
      rw [Nat.succ_mul]
      ring
    rw [hfun, ih (l.drop n) n (by simp [h]; ring_nf; omega)]
    rw [Nat.zero_mul, List.drop_zero]
    exact List.take_append_drop n l

lemma getD_range_map (f : ℕ → ℤ) (B j : ℕ) (hj : j < B) :
    ((List.range B).map f).getD j 0 = f j := by
  rw [List.getD_eq_getElem _ 0 (by simpa using hj)]
  simp

lemma batchifyData_column (data : List ℤ) (B j : ℕ) (hj : j < B) :
    matrixColumn (batchifyData data B) j =
      ((data.take (data.length / B * B)).drop (j * (data.length / B))).take
        (data.length / B) := by
  have hlen : (data.take (data.length / B * B)).length = data.length / B * B := by
    simp [Nat.div_mul_le_self]
  unfold matrixColumn batchifyData
  rw [List.map_map]
  have hcongr : ∀ i ∈ List.range (data.length / B),
      ((fun row => row.getD j 0) ∘ fun i =>
        (List.range B).map (fun j2 =>
          (data.take (data.length / B * B)).getD (j2 * (data.length / B) + i) 0)) i =
      (fun i => (data.take (data.length / B * B)).getD
        (j * (data.length / B) + i) 0) i := by
    intro i _
    exact getD_range_map _ B j hj
  rw [List.map_congr_left hcongr]
  exact range_map_getD _ _ _ (by rw [hlen]; calc
    j * (data.length / B) + data.length / B = (j + 1) * (data.length / B) := by ring
    _ ≤ B * (data.length / B) := Nat.mul_le_mul_right _ hj
    _ = data.length / B * B := Nat.mul_comm _ _)

/-- C1: for `1 ≤ B ≤ L` the Sequence Batcher succeeds and returns the matrix
`batchifyData data B` of shape `[L / B, B]`, and concatenating its `B` columns
in column order reproduces exactly the first `(L / B) * B` tokens of the
original sequence (the trailing `L mod B` tokens are discarded). -/
theorem c1_batchify_shape_columns (data : List ℤ) (B : ℕ)
    (h1 : 1 ≤ B) (h2 : B ≤ data.length) :
    batchify data (B : ℤ) = some (batchifyData data B) ∧
    (batchifyData data B).length = data.length / B ∧
    (batchifyData data B).map List.length = List.replicate (data.length / B) B ∧
    columnsJoin (batchifyData data B) B = data.take (data.length / B * B) := by
  have hdiv : data.length / B ≠ 0 := (Nat.div_pos h2 h1).ne'
  refine ⟨?_, ?_, ?_, ?_⟩
  · rw [batchify_natCast data B h1, if_neg hdiv]
  · simp [batchifyData]
  · rw [List.eq_replicate_iff]
    constructor
    · simp [batchifyData]
    · intro b hb
      simp only [batchifyData, List.map_map, List.mem_map, List.mem_range] at hb
      obtain ⟨i, _, rfl⟩ := hb
      simp
  · unfold columnsJoin
    have hcols : ∀ j ∈ List.range B, matrixColumn (batchifyData data B) j =
        ((data.take (data.length / B * B)).drop (j * (data.length / B))).take
          (data.length / B) := by
      intro j hj
      exact batchifyData_column data B j (List.mem_range.mp hj)
    rw [List.map_congr_left hcols]
    have hlen : (data.take (data.length / B * B)).length = B * (data.length / B) := by
      rw [List.length_take, min_eq_left (Nat.div_mul_le_self _ _), Nat.mul_comm]
    exact chunks_flatten B _ _ hlen

/-- Witness for C1: the spec's end-to-end example, token stream `0..23` with
batch width 4. -/
theorem c1_batchify_shape_columns_witness :
    batchify [0, 1, 2, 3, 4, 5, 6, 7, 8, 9, 10, 11, 12, 13, 14, 15, 16, 17, 18,
        19, 20, 21, 22, 23] (4 : ℤ) =
      some (batchifyData [0, 1, 2, 3, 4, 5, 6, 7, 8, 9, 10, 11, 12, 13, 14, 15,
        16, 17, 18, 19, 20, 21, 22, 23] 4) ∧
    (batchifyData [0, 1, 2, 3, 4, 5, 6, 7, 8, 9, 10, 11, 12, 13, 14, 15, 16, 17,
        18, 19, 20, 21, 22, 23] 4).length =
      [0, 1, 2, 3, 4, 5, 6, 7, 8, 9, 10, 11, 12, 13, 14, 15, 16, 17, 18, 19, 20,
        21, 22, 23].length / 4 ∧
    (batchifyData [0, 1, 2, 3, 4, 5, 6, 7, 8, 9, 10, 11, 12, 13, 14, 15, 16, 17,
        18, 19, 20, 21, 22, 23] 4).map List.length =
      List.replicate ([0, 1, 2, 3, 4, 5, 6, 7, 8, 9, 10, 11, 12, 13, 14, 15, 16,
        17, 18, 19, 20, 21, 22, 23].length / 4) 4 ∧
    columnsJoin (batchifyData [0, 1, 2, 3, 4, 5, 6, 7, 8, 9, 10, 11, 12, 13, 14,
        15, 16, 17, 18, 19, 20, 21, 22, 23] 4) 4 =
      [0, 1, 2, 3, 4, 5, 6, 7, 8, 9, 10, 11, 12, 13, 14, 15, 16, 17, 18, 19, 20,
        21, 22, 23].take
        ([0, 1, 2, 3, 4, 5, 6, 7, 8, 9, 10, 11, 12, 13, 14, 15, 16, 17, 18, 19,
          20, 21, 22, 23].length / 4 * 4) :=
  c1_batchify_shape_columns
    [0, 1, 2, 3, 4, 5, 6, 7, 8, 9, 10, 11, 12, 13, 14, 15, 16, 17, 18, 19, 20,
      21, 22, 23] 4 (by decide) (by decide)

lemma flatten_length_of_rows (rs : List (List ℤ)) (B : ℕ)
    (h : ∀ r ∈ rs, r.length = B) : rs.flatten.length = rs.length * B := by
  induction rs with
  | nil => simp
  | cons r rs ih =>
    rw [List.flatten_cons, List.length_append, h r (by simp),
      ih (fun r2 hr2 => h r2 (by simp [hr2])), List.length_cons, Nat.succ_mul]
    omega

lemma flatten_chunk (rs : List (List ℤ)) (B : ℕ) (h : ∀ r ∈ rs, r.length = B) :
    ∀ t, t < rs.length → ((rs.flatten).drop (t * B)).take B = rs.getD t [] := by
  induction rs with
  | nil => simp
  | cons r rs ih =>
    intro t ht
    cases t with
    | zero =>
      rw [List.flatten_cons, Nat.zero_mul, List.drop_zero, List.getD_cons_zero,
        ← h r (by simp)]
      exact List.take_left r _
    | succ t =>
      have hr : r.length = B := h r (by simp)
      have hdrop : (r ++ rs.flatten).drop (B + t * B) = rs.flatten.drop (t * B) := by
        rw [← hr]
        exact List.drop_append (t * r.length)
      rw [List.flatten_cons, List.getD_cons_succ, Nat.succ_mul, Nat.add_comm, hdrop]
      exact ih (fun r2 hr2 => h r2 (by simp [hr2])) t (by simpa using ht)

lemma getD_take_drop (source : List (List ℤ)) (i seq t : ℕ) (ht : t < seq) :
    ((source.drop i).take seq).getD t [] = source.getD (i + t) [] := by
  rw [List.getD_eq_getElem?_getD, List.getD_eq_getElem?_getD,
    List.getElem?_take_of_lt ht, List.getElem?_drop]

/-- C2: for any batched stream whose rows all have width `B`, any offset
`i < rows - 1` and any window size `W`, the Window Slicer returns an input of
`seq_len` rows (`seq_len * B` elements) and a flat target of `seq_len * B`
elements, with `seq_len = min W (rows - 1 - i)`; input row `t` is stream row
`i + t`, and the target, flattened row-major, has stream row `i + 1 + t` as its
`t`-th `B`-element chunk (the input shifted by exactly one row). -/
theorem c2_get_batch_window (source : List (List ℤ)) (B W i : ℕ)
    (hrows : ∀ r ∈ source, r.length = B) (hi : i + 1 < source.length) :
    (get_batch source W i).1.length = min W (source.length - 1 - i) ∧
    (get_batch source W i).1.flatten.length = min W (source.length - 1 - i) * B ∧
    (get_batch source W i).2.length = min W (source.length - 1 - i) * B ∧
    ∀ t, t < min W (source.length - 1 - i) →
      (get_batch source W i).1.getD t [] = source.getD (i + t) [] ∧
      ((get_batch source W i).2.drop (t * B)).take B = source.getD (i + 1 + t) [] := by
  have hdat : (get_batch source W i).1 =
      (source.drop i).take (min W (source.length - 1 - i)) := rfl
  have htgt : (get_batch source W i).2 =
      ((source.drop (i + 1)).take (min W (source.length - 1 - i))).flatten := rfl
  have hdatrows : ∀ r ∈ (get_batch source W i).1, r.length = B := by
    intro r hr
    rw [hdat] at hr
    exact hrows r (List.mem_of_mem_drop (List.mem_of_mem_take hr))
  have htgtrows : ∀ r ∈ (source.drop (i + 1)).take (min W (source.length - 1 - i)),
      r.length = B := by
    intro r hr
    exact hrows r (List.mem_of_mem_drop (List.mem_of_mem_take hr))
  have hdatlen : (get_batch source W i).1.length = min W (source.length - 1 - i) := by
    rw [hdat, List.length_take, List.length_drop]
    omega
  have htgtlen2 : ((source.drop (i + 1)).take (min W (source.length - 1 - i))).length =
      min W (source.length - 1 - i) := by
    rw [List.length_take, List.length_drop]
    omega
  refine ⟨hdatlen, ?_, ?_, ?_⟩
  · rw [flatten_length_of_rows _ B hdatrows, hdatlen]
  · rw [htgt, flatten_length_of_rows _ B htgtrows, htgtlen2]
  · intro t ht
    constructor
    · rw [hdat, getD_take_drop source i _ t ht]
    · rw [htgt, flatten_chunk _ B htgtrows t (by omega),
        getD_take_drop source (i + 1) _ t ht]

/-- A concrete 6-row, 4-column batched stream: the spec's end-to-end example,
`batchify` of the token stream `0..23` with batch width 4. -/
def sampleStream : List (List ℤ) :=
  [[0, 6, 12, 18], [1, 7, 13, 19], [2, 8, 14, 20], [3, 9, 15, 21],
   [4, 10, 16, 22], [5, 11, 17, 23]]

/-- Witness for C2: the spec's example window at offset 0 with window size 2. -/
theorem c2_get_batch_window_witness :
    (get_batch sampleStream 2 0).2.length = min 2 (sampleStream.length - 1 - 0) * 4 ∧
    (get_batch sampleStream 2 0).1.getD 1 [] = sampleStream.getD (0 + 1) [] ∧
    ((get_batch sampleStream 2 0).2.drop (1 * 4)).take 4 = sampleStream.getD (0 + 1 + 1) [] :=
  ⟨(c2_get_batch_window sampleStream 4 2 0 (by decide) (by decide)).2.2.1,
   ((c2_get_batch_window sampleStream 4 2 0 (by decide) (by decide)).2.2.2 1
     (by decide)).1,
   ((c2_get_batch_window sampleStream 4 2 0 (by decide) (by decide)).2.2.2 1
     (by decide)).2⟩

/-- Concatenation (in rank order) of the offset sequences of all
`world_size` ranks. -/
def rankUnion (W ws rows : ℕ) : List ℕ :=
  (List.range ws).flatMap (fun r => stepOffsets W r ws rows)

/-- The union of all ranks' offset sequences, sorted ascending. -/
def sortedUnion (W ws rows : ℕ) : List ℕ :=
  List.insertionSort (· ≤ ·) (rankUnion W ws rows)

lemma lt_ceil_div {k : ℕ} (hk : 0 < k) (j d : ℕ) :
    j < (d + k - 1) / k ↔ j * k < d := by
  rw [Nat.lt_iff_add_one_le, Nat.le_div_iff_mul_le hk, Nat.add_one_mul]
  omega

lemma mem_pyRange {s t k : ℕ} (hk : 0 < k) {a : ℕ} :
    a ∈ pyRange s t k ↔ s ≤ a ∧ a < t ∧ k ∣ a - s := by
  unfold pyRange
  simp only [List.mem_map, List.mem_range]
  constructor
  · rintro ⟨j, hj, rfl⟩
    rw [lt_ceil_div hk] at hj
    exact ⟨Nat.le_add_right s _, by omega, ⟨j, by rw [Nat.mul_comm k j]; omega⟩⟩
  · rintro ⟨hs, ht, c, hc⟩
    rw [Nat.mul_comm] at hc
    exact ⟨c, by rw [lt_ceil_div hk]; omega, by omega⟩

lemma pyRange_sorted (s t k : ℕ) (hk : 0 < k) : (pyRange s t k).Sorted (· < ·) := by
  unfold pyRange
  rw [List.Sorted, List.pairwise_map]
  refine (List.pairwise_lt_range _).imp ?_
  intro a b hab
  have := mul_lt_mul_of_pos_right hab hk
  omega

lemma pyRange_nodup (s t k : ℕ) (hk : 0 < k) : (pyRange s t k).Nodup :=
  (pyRange_sorted s t k hk).imp (fun h => Nat.ne_of_lt h)

lemma stepOffsets_disjoint (W ws rows : ℕ) (hW : 0 < W) (hws : 0 < ws)
    {r1 r2 : ℕ} (h1 : r1 < ws) (h2 : r2 < ws) (hne : r1 ≠ r2) :
    ∀ a, a ∈ stepOffsets W r1 ws rows → a ∉ stepOffsets W r2 ws rows := by
  intro a ha1 ha2
  have hk : 0 < W * ws := Nat.mul_pos hW hws
  rw [stepOffsets, mem_pyRange hk] at ha1 ha2
  obtain ⟨hs1, ht1, c1, hc1⟩ := ha1
  obtain ⟨hs2, ht2, c2, hc2⟩ := ha2
  have hb1 : W * r1 < W * ws := mul_lt_mul_of_pos_left h1 hW
  have hb2 : W * r2 < W * ws := mul_lt_mul_of_pos_left h2 hW
  have hr12 : W * r1 ≠ W * r2 := fun h => hne (Nat.eq_of_mul_eq_mul_left hW h)
  rcases Nat.lt_trichotomy c1 c2 with hc | hc | hc
  · have hstep : W * ws * (c1 + 1) ≤ W * ws * c2 :=
      mul_le_mul_left' (Nat.succ_le_of_lt hc) (W * ws)
    rw [Nat.mul_succ] at hstep
    omega
  · subst hc
    omega
  · have hstep : W * ws * (c2 + 1) ≤ W * ws * c1 :=
      mul_le_mul_left' (Nat.succ_le_of_lt hc) (W * ws)
    rw [Nat.mul_succ] at hstep
    omega

lemma rankUnion_nodup (W ws rows : ℕ) (hW : 0 < W) (hws : 0 < ws) :
    (rankUnion W ws rows).Nodup := by
  rw [rankUnion, List.nodup_flatMap]
  constructor
  · intro r _
    exact pyRange_nodup _ _ _ (Nat.mul_pos hW hws)
  · rw [List.pairwise_iff_getElem]
    intro i j hi hj hij
    simp only [List.length_range] at hi hj
    simp only [List.getElem_range]
    intro a ha1 ha2
    exact stepOffsets_disjoint W ws rows hW hws hi hj (Nat.ne_of_lt hij) a ha1 ha2

lemma stepOffsets_single_eq (W rows : ℕ) :
    stepOffsets W 0 1 rows = pyRange 0 (rows - 1) W := by
  rw [stepOffsets, Nat.mul_zero, Nat.mul_one]

lemma rankUnion_perm (W ws rows : ℕ) (hW : 0 < W) (hws : 0 < ws) :
    (rankUnion W ws rows).Perm (stepOffsets W 0 1 rows) := by
  rw [stepOffsets_single_eq,
    List.perm_ext_iff_of_nodup (rankUnion_nodup W ws rows hW hws)
      (pyRange_nodup _ _ _ hW)]
  intro a
  rw [rankUnion, List.mem_flatMap, mem_pyRange hW]
  constructor
  · rintro ⟨r, hr, ha⟩
    rw [List.mem_range] at hr
    rw [stepOffsets, mem_pyRange (Nat.mul_pos hW hws)] at ha
    obtain ⟨hs, ht, c, hc⟩ := ha
    have hexp : W * r + W * ws * c = W * (r + ws * c) := by
      rw [Nat.mul_add, Nat.mul_assoc]
    exact ⟨Nat.zero_le a, ht, ⟨r + ws * c, by omega⟩⟩
  · rintro ⟨hz, ht, m, hm⟩
    refine ⟨m % ws, List.mem_range.mpr (Nat.mod_lt m hws), ?_⟩
    rw [stepOffsets, mem_pyRange (Nat.mul_pos hW hws)]
    have hmod : W * (m % ws) ≤ W * m := mul_le_mul_left' (Nat.mod_le m ws) W
    have hdm : ws * (m / ws) + m % ws = m := Nat.div_add_mod m ws
    have hexp : W * m = W * ws * (m / ws) + W * (m % ws) := by
      calc W * m = W * (ws * (m / ws) + m % ws) := by rw [hdm]
        _ = W * (ws * (m / ws)) + W * (m % ws) := by rw [Nat.mul_add]
        _ = W * ws * (m / ws) + W * (m % ws) := by rw [Nat.mul_assoc]
    exact ⟨by omega, ht, ⟨m / ws, by omega⟩⟩

/-- C3: for any window size `W ≥ 1` and `world_size ≥ 1`, sorting the union of
all ranks' step-offset sequences yields exactly the single-worker sequence
`0, W, 2W, …` (offsets below `rows - 1`), and no offset is produced by two
distinct ranks. -/
theorem c3_offset_partition (W ws rows : ℕ) (hW : 1 ≤ W) (hws : 1 ≤ ws) :
    sortedUnion W ws rows = stepOffsets W 0 1 rows ∧
    ∀ r1 r2, r1 < ws → r2 < ws → r1 ≠ r2 →
      ∀ a, a ∈ stepOffsets W r1 ws rows → a ∉ stepOffsets W r2 ws rows := by
  constructor
  · unfold sortedUnion
    exact List.eq_of_perm_of_sorted
      ((List.perm_insertionSort _ _).trans (rankUnion_perm W ws rows hW hws))
      (List.sorted_insertionSort _ _)
      (by
        rw [stepOffsets_single_eq]
        exact (pyRange_sorted 0 (rows - 1) W (by omega)).imp
          (fun h => Nat.le_of_lt h))
  · intro r1 r2 h1 h2 hne a
    exact stepOffsets_disjoint W ws rows hW hws h1 h2 hne a

/-- Witness for C3: window size 3, two workers, a 20-row stream.  Rank 0
produces `[0, 6, 12, 18]`, rank 1 produces `[3, 9, 15]`; sorted union equals
the single-worker sequence `[0, 3, 6, 9, 12, 15, 18]`, and offset 6 (rank 0)
is not produced by rank 1. -/
theorem c3_offset_partition_witness :
    sortedUnion 3 2 20 = stepOffsets 3 0 1 20 ∧ (6 : ℕ) ∉ stepOffsets 3 1 2 20 :=
  ⟨(c3_offset_partition 3 2 20 (by decide) (by decide)).1,
   (c3_offset_partition 3 2 20 (by decide) (by decide)).2 0 1 (by decide)
     (by decide) (by decide) 6 (by decide)⟩

/-- Training state of the Epoch Controller (main.py lines 207-232): the
current learning rate and the best validation loss seen so far (`None` before
the first epoch). -/
structure TrainingState where
  lr : ℚ
  best : Option ℚ

/-- The checkpoint condition of main.py line 225,
`if not best_val_loss or val_loss < best_val_loss`.  Python truthiness makes
`not best_val_loss` true both when `best_val_loss` is `None` and when it is
exactly `0.0`. -/
def saveCondition (best : Option ℚ) (val_loss : ℚ) : Bool :=
  match best with
  | none => true
  | some b => decide (b = 0) || decide (val_loss < b)

/-- One epoch of the Epoch Controller (main.py lines 224-232): if the
checkpoint condition holds, persist a snapshot (returned flag `true`) and set
best-so-far to the new validation loss; otherwise divide the learning rate by
4 and leave best-so-far unchanged (flag `false`). -/
def epochUpdate (s : TrainingState) (val_loss : ℚ) : TrainingState × Bool :=
  if saveCondition s.best val_loss then
    ({ lr := s.lr, best := some val_loss }, true)
  else
    ({ lr := s.lr / 4, best := s.best }, false)

/-- The Epoch Controller run over a list of per-epoch validation losses
(main.py lines 215-232), returning the final training state and the list of
per-epoch checkpoint-write flags. -/
def runEpochs (s : TrainingState) : List ℚ → TrainingState × List Bool
  | [] => (s, [])
  | v :: vs =>
    let su := epochUpdate s v
    let rest := runEpochs su.1 vs
    (rest.1, su.2 :: rest.2)

/-- C10: whenever the best validation loss so far is exactly 0, the checkpoint
branch is taken regardless of the new validation loss (even a larger one): a
snapshot is written, best-so-far is overwritten with the new loss, and the
learning rate is not annealed, because Python's `not best_val_loss` treats a
best of `0.0` like an absent one. -/
theorem c10_zero_best_checkpoints (lr val_loss : ℚ) :
    epochUpdate ⟨lr, some 0⟩ val_loss = (⟨lr, some val_loss⟩, true) := by
  simp [epochUpdate, saveCondition]

lemma runEpochs_decreasing (vs : List ℚ) : ∀ (b lr : ℚ), List.Chain (· > ·) b vs →
    (runEpochs ⟨lr, some b⟩ vs).2 = List.replicate vs.length true ∧
    (runEpochs ⟨lr, some b⟩ vs).1.lr = lr := by
  induction vs with
  | nil => intro b lr _; exact ⟨rfl, rfl⟩
  | cons v vs ih =>
    intro b lr h
    rcases h with _ | ⟨hbv, hchain⟩
    have hstep : epochUpdate ⟨lr, some b⟩ v = (⟨lr, some v⟩, true) := by
      simp [epochUpdate, saveCondition, hbv]
    obtain ⟨h1, h2⟩ := ih v lr hchain
    exact ⟨by simp [runEpochs, hstep, h1, List.replicate_succ],
      by simp [runEpochs, hstep, h2]⟩

lemma runEpochs_annealing (vs : List ℚ) : ∀ (b lr : ℚ), b ≠ 0 →
    (∀ x ∈ vs, ¬ x < b) →
    (runEpochs ⟨lr, some b⟩ vs).2 = List.replicate vs.length false ∧
    (runEpochs ⟨lr, some b⟩ vs).1.lr = lr / 4 ^ vs.length := by
  induction vs with
  | nil => intro b lr _ _; exact ⟨rfl, by simp [runEpochs]⟩
  | cons v vs ih =>
    intro b lr hb h
    have hstep : epochUpdate ⟨lr, some b⟩ v = (⟨lr / 4, some b⟩, false) := by
      simp [epochUpdate, saveCondition, hb]
      exact not_lt.mp (h v (by simp))
    obtain ⟨h1, h2⟩ := ih b (lr / 4) hb (fun x hx => h x (by simp [hx]))
    refine ⟨by simp [runEpochs, hstep, h1, List.replicate_succ], ?_⟩
    rw [runEpochs]
    simp only [hstep, h2, List.length_cons]
    rw [div_div, ← pow_succ']

/-- C4 (amended): starting from no best-so-far, (a) a strictly decreasing
sequence of validation losses produces a checkpoint write at every epoch and
never changes the learning rate; (b) a strictly increasing sequence whose
first loss is nonzero produces a checkpoint only at epoch 1, and the learning
rate is divided by 4 at every later epoch.  (The nonzero requirement on the
first loss is forced by the `0.0`-truthiness behaviour of C10.) -/
theorem c4_epoch_policy (lr0 v0 : ℚ) (vs : List ℚ) :
    (List.Chain (· > ·) v0 vs →
      (runEpochs ⟨lr0, none⟩ (v0 :: vs)).2 = List.replicate (vs.length + 1) true ∧
      (runEpochs ⟨lr0, none⟩ (v0 :: vs)).1.lr = lr0) ∧
    (v0 ≠ 0 → List.Chain (· < ·) v0 vs →
      (runEpochs ⟨lr0, none⟩ (v0 :: vs)).2 = true :: List.replicate vs.length false ∧
      (runEpochs ⟨lr0, none⟩ (v0 :: vs)).1.lr = lr0 / 4 ^ vs.length) := by
  have hfirst : epochUpdate ⟨lr0, none⟩ v0 = (⟨lr0, some v0⟩, true) := by
    simp [epochUpdate, saveCondition]
  constructor
  · intro hchain
    obtain ⟨h1, h2⟩ := runEpochs_decreasing vs v0 lr0 hchain
    exact ⟨by simp [runEpochs, hfirst, h1, List.replicate_succ],
      by simp [runEpochs, hfirst, h2]⟩
  · intro h0 hchain
    have hge : ∀ x ∈ vs, ¬ x < v0 := by
      have hp : (v0 :: vs).Pairwise (· < ·) := List.chain_iff_pairwise.mp hchain
      intro x hx
      exact lt_asymm ((List.pairwise_cons.mp hp).1 x hx)
    obtain ⟨h1, h2⟩ := runEpochs_annealing vs v0 lr0 h0 hge
    exact ⟨by simp [runEpochs, hfirst, h1], by simp [runEpochs, hfirst, h2]⟩

/-- Counterexample to C4 as stated: with the strictly increasing validation
losses `0, 1` the controller writes a checkpoint at epoch 2 as well (flags are
`[true, true]`, not `[true, false]`), and the learning rate is never divided
by 4 — because the epoch-1 best of `0` is falsy in Python.  This contradicts
the claim that under strictly increasing losses no checkpoint occurs after
epoch 1 and the rate is divided by 4 at every later epoch. -/
theorem c4_epoch_policy_counterexample :
    List.Chain (· < ·) (0 : ℚ) [1] ∧
    (runEpochs ⟨20, none⟩ [0, 1]).2 = [true, true] ∧
    (runEpochs ⟨20, none⟩ [0, 1]).1.lr = 20 := by
  refine ⟨List.Chain.cons (by norm_num) (List.Chain.nil), ?_, ?_⟩ <;>
    norm_num [runEpochs, epochUpdate, saveCondition]

/-- Witness for C4 (amended): losses `10, 9, 8` (decreasing) give three
checkpoints and an unchanged rate; losses `10, 11, 12` (increasing, nonzero
start) give one checkpoint and two annealings. -/
theorem c4_epoch_policy_witness :
    ((runEpochs ⟨20, none⟩ (10 :: [9, 8])).2 = List.replicate (2 + 1) true ∧
     (runEpochs ⟨20, none⟩ (10 :: [9, 8])).1.lr = 20) ∧
    ((runEpochs ⟨20, none⟩ (10 :: [11, 12])).2 = true :: List.replicate 2 false ∧
     (runEpochs ⟨20, none⟩ (10 :: [11, 12])).1.lr = 20 / 4 ^ 2) :=
  ⟨(c4_epoch_policy 20 10 [9, 8]).1
    (List.Chain.cons (by norm_num) (List.Chain.cons (by norm_num) List.Chain.nil)),
   (c4_epoch_policy 20 10 [11, 12]).2 (by norm_num)
    (List.Chain.cons (by norm_num) (List.Chain.cons (by norm_num) List.Chain.nil))⟩

/-- Python `int()` applied to a float: truncation toward zero. -/
def pyInt (q : ℚ) : ℤ := if 0 ≤ q then ⌊q⌋ else ⌈q⌉

/-- Observables of one `train(...)` call (main.py lines 135-174): the
effective window drawn at line 136, the `seq_len` drawn at line 138, the
learning rate in effect at each `optimizer.step()` of the epoch, the step
offsets iterated by the loop at line 148, and the optimizer's learning rate
after the call returns (restored at line 174). -/
structure TrainRun where
  bpttEff : ℚ
  seqLen : ℤ
  stepLrs : List ℚ
  offsets : List ℕ
  lrAfter : ℚ

/-- Control behaviour of `train` (main.py lines 135-174) as a function of the
two stochastic draws made once at epoch entry: `u` is the value of
`np.random.random()` at line 136 (effective window = `args.bptt` if
`u < 0.95`, else `args.bptt / 2`) and `g` is the value of
`np.random.normal(bptt, 5)` at line 138 (`seq_len = max(5, int(g))`).
Lines 139-140 set the optimizer's learning rate to `lr2 * seq_len /
args.bptt` for the whole epoch; the loop at line 148 advances by the NOMINAL
`args.bptt * args.world_size` (not the drawn window); line 174 restores
`lr2`. -/
def train (lr_opt : ℚ) (args_bptt rank world_size rows : ℕ) (u g : ℚ) : TrainRun :=
  let bptt : ℚ := if u < 95 / 100 then (args_bptt : ℚ) else (args_bptt : ℚ) / 2
  let seq_len : ℤ := max 5 (pyInt g)
  let lr2 : ℚ := lr_opt
  let offs := stepOffsets args_bptt rank world_size rows
  { bpttEff := bptt
    seqLen := seq_len
    stepLrs := offs.map (fun _ => lr2 * (seq_len : ℚ) / (args_bptt : ℚ))
    offsets := offs
    lrAfter := lr2 }

/-- C5: during every training step of an epoch the optimizer's learning rate
equals `lr_base * seq_len / W` (with `seq_len` the drawn window length and `W`
the nominal window size), and after the steps the learning rate is `lr_base`
again, so the scaling is not observable outside the call.  (The code scales
once per `train` call, lines 139-140, and restores once at line 174; since
`seq_len` is drawn once per call, every step of the epoch runs at the scaled
rate.) -/
theorem c5_lr_scaling (lr : ℚ) (bptt rank ws rows : ℕ) (u g : ℚ) :
    (train lr bptt rank ws rows u g).stepLrs =
      List.replicate (stepOffsets bptt rank ws rows).length
        (lr * ((train lr bptt rank ws rows u g).seqLen : ℚ) / (bptt : ℚ)) ∧
    (train lr bptt rank ws rows u g).lrAfter = lr := by
  constructor
  · simp [train, List.map_const']
  · rfl

/-- C6 (amended): exactly one stochastic draw of the effective window happens
at epoch entry (the nominal `W` with probability 0.95, otherwise `W/2`); the
per-call `seq_len` is `max(5, int(g))` where `int` truncates toward zero (not
`round`); and the step offsets iterated for the whole epoch are computed from
the NOMINAL window size `W` — they do not depend on either draw. -/
theorem c6_window_draws (lr : ℚ) (bptt rank ws rows : ℕ) (u g u2 g2 : ℚ) :
    (train lr bptt rank ws rows u g).bpttEff =
      (if u < 95 / 100 then (bptt : ℚ) else (bptt : ℚ) / 2) ∧
    (train lr bptt rank ws rows u g).seqLen = max 5 (pyInt g) ∧
    (train lr bptt rank ws rows u g).offsets = stepOffsets bptt rank ws rows ∧
    (train lr bptt rank ws rows u g).offsets =
      (train lr bptt rank ws rows u2 g2).offsets :=
  ⟨rfl, rfl, rfl, rfl⟩

/-- Counterexample to C6 as stated: nominal window 10, a 22-row stream, one
worker, draw `u = 0.99` (so the effective window is 5) and normal sample
`g = 6.9`.  The epoch's offsets are `[0, 10, 20]` — stride 10, the nominal
window — not the `[0, 5, 10, 15, 20]` that stride `effective_W = 5` would
give; and `seq_len` is `max(5, int(6.9)) = 6`, not the `max(5, round(6.9)) =
7` the claim's `round` would give. -/
theorem c6_window_draws_counterexample :
    (train 20 10 0 1 22 (99 / 100) (69 / 10)).bpttEff = 5 ∧
    (train 20 10 0 1 22 (99 / 100) (69 / 10)).offsets = [0, 10, 20] ∧
    pyRange (5 * 0) (22 - 1) (5 * 1) = [0, 5, 10, 15, 20] ∧
    (train 20 10 0 1 22 (99 / 100) (69 / 10)).seqLen = 6 ∧
    max (5 : ℤ) (round ((69 : ℚ) / 10)) = 7 := by
  refine ⟨?_, ?_, by decide, ?_, ?_⟩
  · norm_num [train]
  · show stepOffsets 10 0 1 22 = [0, 10, 20]
    decide
  · show max 5 (pyInt (69 / 10)) = 6
    norm_num [pyInt]
  · norm_num [round_eq]

/-- External model-plus-criterion contract used by the Evaluation Loop: an
initial hidden state and a step function taking a window's input rows, its
flattened targets and the carried hidden state, returning the mean
cross-entropy loss over the window and the new hidden state. -/
structure EvalModel (H : Type) where
  init : H
  step : List (List ℤ) → List ℤ → H → ℚ × H

/-- The accumulation loop of `evaluate` (main.py lines 125-131): for each
offset, slice the window with `get_batch`, run the model, and add
`len(data) * loss` to the running total.  (`repackage_hidden` at line 131 is
value-preserving, so threading the returned state directly is faithful.) -/
def evalFold {H : Type} (M : EvalModel H) (ds : List (List ℤ)) (bptt : ℕ) :
    List ℕ → ℚ → H → ℚ
  | [], total, _ => total
  | i :: is, total, h =>
    let db := get_batch ds bptt i
    let lh := M.step db.1 db.2 h
    evalFold M ds bptt is (total + (db.1.length : ℚ) * lh.1) lh.2

/-- The Evaluation Loop `evaluate` (main.py lines 119-132): iterate the
distributed step offsets with the fixed nominal window size and return
`total_loss / ((len(data_source) - 1) / world_size)`. -/
def evaluate {H : Type} (M : EvalModel H) (data_source : List (List ℤ))
    (bptt rank world_size : ℕ) : ℚ :=
  evalFold M data_source bptt
    (stepOffsets bptt rank world_size data_source.length) 0 M.init /
    (((data_source.length : ℚ) - 1) / (world_size : ℚ))

/-- Spec-side accumulator: the sum over the iterated windows of
`window_length * mean_loss_over_window`, where the window length at offset
`i` is `min W (rows - 1 - i)`. -/
def weightedLossTotal {H : Type} (M : EvalModel H) (ds : List (List ℤ))
    (bptt : ℕ) : List ℕ → H → ℚ
  | [], _ => 0
  | i :: is, h =>
    let lh := M.step (get_batch ds bptt i).1 (get_batch ds bptt i).2 h
    ((min bptt (ds.length - 1 - i) : ℕ) : ℚ) * lh.1 +
      weightedLossTotal M ds bptt is lh.2

lemma evalFold_eq {H : Type} (M : EvalModel H) (ds : List (List ℤ)) (bptt : ℕ) :
    ∀ (is : List ℕ) (total : ℚ) (h : H), (∀ i ∈ is, i + 1 < ds.length) →
      evalFold M ds bptt is total h = total + weightedLossTotal M ds bptt is h := by
  intro is
  induction is with
  | nil => intro total h _; simp [evalFold, weightedLossTotal]
  | cons i is ih =>
    intro total h hlt
    have hdat : ((get_batch ds bptt i).1.length : ℚ) =
        ((min bptt (ds.length - 1 - i) : ℕ) : ℚ) := by
      have hi : i + 1 < ds.length := hlt i (by simp)
      have : (get_batch ds bptt i).1.length = min bptt (ds.length - 1 - i) := by
        show ((ds.drop i).take (min bptt (ds.length - 1 - i))).length = _
        rw [List.length_take, List.length_drop]
        omega
      rw [this]
    simp only [evalFold, weightedLossTotal]
    rw [ih _ _ (fun j hj => hlt j (by simp [hj])), hdat]
    ring

/-- C7: the evaluation metric is the accumulated sum over windows of
`window_length * mean_loss_over_window`, divided by
`(rows - 1) / world_size`; the windows are sliced with the fixed nominal
window size, and the pass is deterministic — `evaluate` is a pure function of
the model, stream and worker descriptor, with no stochastic draw (contrast
`train`, which takes the draws `u`, `g` as inputs). -/
theorem c7_evaluate_metric {H : Type} (M : EvalModel H) (ds : List (List ℤ))
    (bptt rank ws : ℕ) (hb : 1 ≤ bptt) (hw : 1 ≤ ws) :
    evaluate M ds bptt rank ws =
      weightedLossTotal M ds bptt (stepOffsets bptt rank ws ds.length) M.init /
        (((ds.length : ℚ) - 1) / (ws : ℚ)) := by
  rw [evaluate, evalFold_eq]
  · rw [zero_add]
  · intro i hi
    rw [stepOffsets, mem_pyRange (Nat.mul_pos (by omega) (by omega))] at hi
    omega

/-- A stateless test model for concrete checks: every window has mean loss 2. -/
def constModel : EvalModel Unit where
  init := ()
  step := fun _ _ _ => (2, ())

/-- Witness for C7: the constant-loss model on the spec's 6-row example
stream, window size 2, single worker. -/
theorem c7_evaluate_metric_witness :
    evaluate constModel sampleStream 2 0 1 =
      weightedLossTotal constModel sampleStream 2
        (stepOffsets 2 0 1 sampleStream.length) constModel.init /
        (((sampleStream.length : ℚ) - 1) / ((1 : ℕ) : ℚ)) :=
  c7_evaluate_metric constModel sampleStream 2 0 1 (by decide) (by decide)

/-- A hidden state as handled by `repackage_hidden` (main.py lines 85-90):
either a single tensor (its numeric values plus a flag recording whether it
still carries backward history) or a tuple of nested hidden states (the LSTM
case is a pair, but the code recurses over arbitrary tuples). -/
inductive HState where
  | tensor (values : List ℚ) (hasHistory : Bool) : HState
  | tuple (children : List HState) : HState

mutual

/-- `repackage_hidden` (main.py lines 85-90): a tensor is detached — same
values, history severed; a tuple is rebuilt by repackaging each component. -/
def repackage_hidden : HState → HState
  | .tensor v _ => .tensor v false
  | .tuple cs => .tuple (repackageChildren cs)

/-- Componentwise `repackage_hidden` over a tuple's children (the generator
expression at main.py line 90). -/
def repackageChildren : List HState → List HState
  | [] => []
  | c :: cs => repackage_hidden c :: repackageChildren cs

end

mutual

/-- A hidden state carries no backward history when every tensor in it has
its history flag cleared. -/
def noHistory : HState → Bool
  | .tensor _ hist => !hist
  | .tuple cs => noHistoryChildren cs

/-- `noHistory` over a tuple's children. -/
def noHistoryChildren : List HState → Bool
  | [] => true
  | c :: cs => noHistory c && noHistoryChildren cs

end

mutual

lemma repackage_hidden_idem (h : HState) :
    repackage_hidden (repackage_hidden h) = repackage_hidden h := by
  cases h with
  | tensor v b => rfl
  | tuple cs =>
    rw [repackage_hidden, repackage_hidden, repackageChildren_idem cs]

lemma repackageChildren_idem (cs : List HState) :
    repackageChildren (repackageChildren cs) = repackageChildren cs := by
  cases cs with
  | nil => rfl
  | cons c cs =>
    rw [repackageChildren, repackageChildren, repackage_hidden_idem c,
      repackageChildren_idem cs]

end

mutual

lemma noHistory_repackage (h : HState) :
    noHistory (repackage_hidden h) = true := by
  cases h with
  | tensor v b => rfl
  | tuple cs =>
    rw [repackage_hidden, noHistory, noHistoryChildren_repackage cs]

lemma noHistoryChildren_repackage (cs : List HState) :
    noHistoryChildren (repackageChildren cs) = true := by
  cases cs with
  | nil => rfl
  | cons c cs =>
    rw [repackageChildren, noHistoryChildren, noHistory_repackage c,
      noHistoryChildren_repackage cs]
    rfl

end

/-- C9: hidden-state repackaging is idempotent — applying `repackage_hidden`
twice yields exactly the same values and structure as applying it once — and
both the once- and twice-repackaged states carry no backward history. -/
theorem c9_repackage_idempotent (h : HState) :
    repackage_hidden (repackage_hidden h) = repackage_hidden h ∧
    noHistory (repackage_hidden h) = true ∧
    noHistory (repackage_hidden (repackage_hidden h)) = true :=
  ⟨repackage_hidden_idem h, noHistory_repackage h, by
    rw [repackage_hidden_idem h]
    exact noHistory_repackage h⟩
